import Mathlib

/-!
Shallow embedding of the dnstap-to-influxdb CNAME-cloaking defense engine
(`cnameprocessor.go`), the reverse-resolution cache of the dnstap decoder
(`getHost`), and the block-list loading pipeline (`loadRpzFile`,
`getBlockedDomains`), together with proofs of the specification's claims
about them.

Go maps `map[string]bool` are modelled as `List String` with set semantics
(membership via `List.contains`); Go maps `map[string]string` are modelled
as association lists `List (String × String)` whose insert overwrites the
previous binding.  The unbounded `for` loop of the CNAME chain walk is
modelled with an explicit fuel parameter; exhausting the fuel corresponds
to the loop not having terminated within that many iterations.
-/

set_option maxRecDepth 10000

namespace DnstapInflux

/-- Membership-set insert, modelling the Go statement `m[key] = true` on a
`map[string]bool`. -/
def insertKey (m : List String) (k : String) : List String :=
  if m.contains k then m else k :: m

/-- Association-list insert, modelling the Go statement `m[k] = v` on a
`map[string]string`: the previous binding for `k` (if any) is overwritten. -/
def mapInsert (m : List (String × String)) (k v : String) : List (String × String) :=
  (k, v) :: m.filter (fun e => !(e.1 == k))

/-- Go map lookup `m[k]` on a `map[string]string`: returns the zero value
`""` when the key is absent. -/
def lookupCname (m : List (String × String)) (k : String) : String :=
  match m.find? (fun e => e.1 == k) with
  | none => ""
  | some e => e.2

/-- `addKeys` from cnameprocessor.go: iterate over the keys of `keysMap`
inserting each into `destMap`. -/
def addKeys (destMap keysMap : List String) : List String :=
  keysMap.foldl (fun dest key => insertKey dest key) destMap

/-- `removeKeys` from cnameprocessor.go: iterate over the keys of `keysMap`
deleting each from `destMap`. -/
def removeKeys (destMap keysMap : List String) : List String :=
  keysMap.foldl (fun dest key => dest.filter (fun x => !(x == key))) destMap

/-- The actuator command tag (`ZoneAdd` / `ZoneRemove` constants used with
the `UnboundCommandMessage` sent on the unbound worker's channel). -/
inductive UnboundCommand where
  | zoneAdd
  | zoneRemove
deriving DecidableEq, Repr

/-- `UnboundCommandMessage` as constructed in cnameprocessor.go:
`UnboundCommandMessage{cmd: ..., domain: ...}`. -/
structure UnboundCommandMessage where
  cmd : UnboundCommand
  domain : String
deriving DecidableEq, Repr

/-- A DNS question (`dns.Question`); only the `Name` field is used by the
engine. -/
structure Question where
  name : String
deriving DecidableEq, Repr

/-- A DNS resource record of the answer section.  The engine only inspects
whether `rr.Header().Rrtype == dns.TypeCNAME` and, for CNAME records, the
fields `cname.Hdr.Name` and `cname.Target`; other record types are
represented by their type number alone. -/
inductive RR where
  | cname (name : String) (target : String)
  | other (rrtype : Nat) (name : String)
deriving DecidableEq, Repr

/-- The parts of `dns.Msg` read by the engine: the question and answer
sections. -/
structure DnsMsg where
  question : List Question
  answer : List RR
deriving DecidableEq, Repr

/-- `Message` from processor.go; `dnsMessage` is `nil` (`none`) when the DNS
payload could not be unpacked.  The timestamp and host fields are carried
along but never read by the engine. -/
structure Message where
  timestamp : Nat := 0
  host : String := ""
  dnsMessage : Option DnsMsg
deriving DecidableEq, Repr

/-- The mutable state owned by the command-processing loop of
`CnameProcessor`: `blockedCnames` is the CloakMap, `blockedDomains` the
live BlockSet. -/
structure EngineState where
  blockedCnames : List (String × String)
  blockedDomains : List String
deriving DecidableEq, Repr

/-- Result of one iteration-limited run of the chain-walk loop. -/
inductive ChainResult where
  | fuelOut
  | notBlocked
  | hit (cname : String)
deriving DecidableEq, Repr

/-- The `for` loop of `processDnstapMessage` that walks the local CNAME
chain starting at `check`: look up the current name; stop if absent
(`len(cname) == 0`); stop with a hit if the target is blocked; otherwise
advance to the target.  `fuel` bounds the number of iterations modelled;
`ChainResult.fuelOut` means the loop had not terminated after `fuel`
iterations. -/
def chainWalk (cnames : List (String × String)) (blocked : List String) :
    Nat → String → ChainResult
  | 0, _ => .fuelOut
  | fuel + 1, check =>
    let cname := lookupCname cnames check
    if cname = "" then .notBlocked
    else if blocked.contains cname then .hit cname
    else chainWalk cnames blocked fuel cname

/-- The answer-section scan of `processDnstapMessage`: build the local
one-shot `name → target` map from the CNAME records; the map is `nil`
(`none`) when the answer section holds no CNAME record. -/
def buildCnames (answer : List RR) : Option (List (String × String)) :=
  answer.foldl
    (fun acc rr =>
      match rr with
      | .cname name target => some (mapInsert (acc.getD []) name target)
      | .other _ _ => acc)
    none

/-- Result of processing one dnstap message: normal completion with the new
state and the actuator commands sent, an out-of-bounds panic from the
unchecked `Question[0]` access, or non-termination of the chain walk within
the modelled fuel. -/
inductive ProcResult where
  | ok (st : EngineState) (out : List UnboundCommandMessage)
  | oobPanic
  | noTermination
deriving DecidableEq, Repr

/-- `processDnstapMessage` from cnameprocessor.go: skip messages with no
parsed DNS content or an empty answer section; read `Question[0].Name`
(an out-of-bounds access when the question section is empty); skip when
`qname` is already blocked; build the local CNAME map (skip when there is
none); walk the chain and, on a hit, insert `qname → cname` into the
CloakMap, insert `qname` into the BlockSet and send one `ZoneAdd`
command. -/
def processDnstapMessage (fuel : Nat) (st : EngineState) (message : Message) :
    ProcResult :=
  match message.dnsMessage with
  | none => .ok st []
  | some m =>
    if m.answer.length > 0 then
      match m.question.head? with
      | none => .oobPanic
      | some q =>
        if st.blockedDomains.contains q.name then .ok st []
        else
          match buildCnames m.answer with
          | none => .ok st []
          | some cnames =>
            match chainWalk cnames st.blockedDomains fuel q.name with
            | .fuelOut => .noTermination
            | .notBlocked => .ok st []
            | .hit cname =>
              .ok ⟨mapInsert st.blockedCnames q.name cname,
                   insertKey st.blockedDomains q.name⟩
                  [⟨UnboundCommand.zoneAdd, q.name⟩]
    else .ok st []

/-- `processUpdateLists` from cnameprocessor.go: for each CloakMap entry
whose target is no longer in the new block set, send a `ZoneRemove` for the
entry's key and delete the entry; then swap the live BlockSet reference to
the new set. -/
def processUpdateLists (st : EngineState) (blockedDomains : List String) :
    EngineState × List UnboundCommandMessage :=
  let kept := st.blockedCnames.filter (fun e => blockedDomains.contains e.2)
  let removed := st.blockedCnames.filter (fun e => !(blockedDomains.contains e.2))
  (⟨kept, blockedDomains⟩, removed.map (fun e => ⟨UnboundCommand.zoneRemove, e.1⟩))

/-- The `Command` sum flowing through the serialized command channel:
`DnsTapCommand` carries a traffic message, `UpdateListsCommand` carries the
freshly recomputed block set. -/
inductive Command where
  | dnsTap (message : Message)
  | updateLists (blockedDomains : List String)
deriving DecidableEq, Repr

/-- Dispatch of one command by the `switch` in `processCommands`. -/
def processCommand (fuel : Nat) (st : EngineState) : Command → ProcResult
  | .dnsTap msg => processDnstapMessage fuel st msg
  | .updateLists bd =>
    let r := processUpdateLists st bd
    .ok r.1 r.2

/-- Result of running the command loop over a whole command sequence,
accumulating the actuator commands sent before completion or failure. -/
inductive RunResult where
  | ok (st : EngineState) (out : List UnboundCommandMessage)
  | oobPanic (out : List UnboundCommandMessage)
  | noTermination (out : List UnboundCommandMessage)
deriving DecidableEq, Repr

/-- Prepend already-emitted actuator commands to a run result. -/
def RunResult.push (out : List UnboundCommandMessage) : RunResult → RunResult
  | .ok st o => .ok st (out ++ o)
  | .oobPanic o => .oobPanic (out ++ o)
  | .noTermination o => .noTermination (out ++ o)

/-- The command-processing loop `processCommands`: consume the enqueued
commands one at a time, in enqueue order, each against the state left by
the previous one.  The FIFO channel delivery is modelled by folding over
the enqueue-order list. -/
def processCommands (fuel : Nat) (st : EngineState) : List Command → RunResult
  | [] => .ok st []
  | c :: rest =>
    match processCommand fuel st c with
    | .ok st' out => RunResult.push out (processCommands fuel st' rest)
    | .oobPanic => .oobPanic []
    | .noTermination => .noTermination []

/-! ### Reachability of engine states

`NewCnameProcessor` starts the engine with an empty CloakMap and the block
set loaded from the list files; every later state arises from processing
`DnsTapCommand` and `UpdateListsCommand` commands. -/

/-- States reachable from the initial state (empty CloakMap, initial block
set `init`) by any sequence of successfully processed dnstap and
update-lists commands. -/
inductive Reachable (init : List String) : EngineState → Prop where
  | base : Reachable init ⟨[], init⟩
  | dnsTap {st st' : EngineState} {out : List UnboundCommandMessage}
      (fuel : Nat) (msg : Message) :
      Reachable init st → processDnstapMessage fuel st msg = .ok st' out →
      Reachable init st'
  | updateLists {st : EngineState} (bd : List String) :
      Reachable init st → Reachable init (processUpdateLists st bd).1

/-- States reachable using dnstap (traffic) commands only, with no
block-list reload. -/
inductive ReachableNoReload (init : List String) : EngineState → Prop where
  | base : ReachableNoReload init ⟨[], init⟩
  | dnsTap {st st' : EngineState} {out : List UnboundCommandMessage}
      (fuel : Nat) (msg : Message) :
      ReachableNoReload init st → processDnstapMessage fuel st msg = .ok st' out →
      ReachableNoReload init st'

/-! ### The chain-walk orbit, for the termination analysis

`chainStep` is the successor function the walk follows while no blocked
name is met; `orbit` iterates it from the query name. -/

/-- One advance of the chain walk: the target the walk would move to from
`q`, or `none` when the walk stops because `q` has no (non-empty) CNAME
target. -/
def chainStep (cnames : List (String × String)) (q : String) : Option String :=
  let t := lookupCname cnames q
  if t = "" then none else some t

/-- The name the chain walk reaches after `n` advances from `q`, ignoring
blocked-name stops; `none` once the chain has ended. -/
def orbit (cnames : List (String × String)) (q : String) : Nat → Option String
  | 0 => some q
  | n + 1 =>
    match orbit cnames q n with
    | none => none
    | some x => chainStep cnames x

/-- The CNAME mapping is acyclic along the path from `q`: within the first
`cnames.length + 2` positions the orbit never revisits a live name.  (Past
that bound the orbit of an acyclic mapping is already dead, so the bounded
quantifier loses no generality and keeps the predicate decidable.) -/
def pathAcyclic (cnames : List (String × String)) (q : String) : Prop :=
  ∀ j, j < cnames.length + 2 → ∀ i, i < j →
    orbit cnames q i = orbit cnames q j → orbit cnames q i = none

instance pathAcyclicDecidable (cnames : List (String × String)) (q : String) :
    Decidable (pathAcyclic cnames q) := by
  unfold pathAcyclic
  infer_instance

/-! ### Block-list file parsing (`loadRpzFile`)

The regular expression
`^(local-zone:\s*")?(([a-z0-9]+([-a-z0-9]+)*\.)+[a-z]{2,}\.?)` is embedded
by a backtracking matcher over `List Char`.  A `Matcher` consumes a prefix
of its input and returns the possible remainders in the engine's
backtracking preference order (greedy, leftmost-first); the head of the
final candidate list is the submatch `FindStringSubmatch` reports. -/

/-- A matcher consumes a prefix of the input and yields the candidate
remainders, most preferred first. -/
def Matcher : Type := List Char → List (List Char)

/-- Match a single character satisfying `p`. -/
def mChar (p : Char → Bool) : Matcher := fun s =>
  match s with
  | [] => []
  | c :: rest => if p c then [rest] else []

/-- Match a literal character sequence. -/
def mLit (lit : List Char) : Matcher := fun s =>
  if lit.isPrefixOf s then [s.drop lit.length] else []

/-- Sequencing: candidates of `a` are extended by `b`, in preference
order. -/
def mSeq (a b : Matcher) : Matcher := fun s => (a s).flatMap b

/-- Greedy option `a?`: prefer matching `a`, fall back to the empty
match. -/
def mOpt (a : Matcher) : Matcher := fun s => a s ++ [s]

/-- Greedy Kleene star `a*`, with explicit structural fuel: prefer one more
iteration, backtrack to fewer.  Iterations that consume nothing are cut off
(all sub-matchers of the embedded pattern consume at least one character,
so nothing is lost), hence `s.length` iterations always suffice. -/
def mStarAux (a : Matcher) : Nat → List Char → List (List Char)
  | 0, s => [s]
  | fuel + 1, s =>
    ((a s).filter (fun t => t.length < s.length)).flatMap (mStarAux a fuel) ++ [s]

/-- Greedy Kleene star `a*`. -/
def mStar (a : Matcher) : Matcher := fun s => mStarAux a s.length s

/-- Greedy `a+` as `a` then `a*`. -/
def mPlus (a : Matcher) : Matcher := mSeq a (mStar a)

/-- The character class `[a-z0-9]`. -/
def isAlnumLower (c : Char) : Bool :=
  ('a' ≤ c && c ≤ 'z') || ('0' ≤ c && c ≤ '9')

/-- The character class `[-a-z0-9]`. -/
def isDashAlnumLower (c : Char) : Bool := c == '-' || isAlnumLower c

/-- The character class `[a-z]`. -/
def isAlphaLower (c : Char) : Bool := 'a' ≤ c && c ≤ 'z'

/-- Go's `\s` class: `[\t\n\f\r ]`. -/
def isSpaceGo (c : Char) : Bool :=
  c == '\t' || c == '\n' || c == Char.ofNat 12 || c == '\r' || c == ' '

/-- Capture group 1: `(local-zone:\s*")`. -/
def group1M : Matcher :=
  mSeq (mLit "local-zone:".toList) (mSeq (mStar (mChar isSpaceGo)) (mChar (fun c => c == '"')))

/-- One dotted label: `[a-z0-9]+([-a-z0-9]+)*\.`. -/
def labelM : Matcher :=
  mSeq (mPlus (mChar isAlnumLower))
    (mSeq (mStar (mPlus (mChar isDashAlnumLower))) (mChar (fun c => c == '.')))

/-- The top-level-domain part `[a-z]{2,}`. -/
def tldM : Matcher :=
  mSeq (mChar isAlphaLower) (mSeq (mChar isAlphaLower) (mStar (mChar isAlphaLower)))

/-- Capture group 2: `(([a-z0-9]+([-a-z0-9]+)*\.)+[a-z]{2,}\.?)`. -/
def group2M : Matcher :=
  mSeq (mPlus labelM) (mSeq tldM (mOpt (mChar (fun c => c == '.'))))

/-- `re.FindStringSubmatch(line)` restricted to the text of capture
group 2: the pattern is anchored (`^`), so it is tried at the start of the
line only; the optional group 1 prefix is preferred greedily, and the
winning candidate's group-2 extent is returned. -/
def reFindGroup2 (s : List Char) : Option (List Char) :=
  (((mOpt group1M) s).flatMap fun r1 =>
    (group2M r1).map fun r2 => r1.take (r1.length - r2.length)).head?

/-- The per-line work of the scanner loop in `loadRpzFile`: extract the
group-2 submatch, if any, and normalize it to end with a trailing dot
(`strings.HasSuffix(domain, ".")` is the last-character test at the
character-list level). -/
def matchEntry (line : String) : Option String :=
  match reFindGroup2 line.toList with
  | none => none
  | some d =>
    some (String.mk (if d.getLast? = some ('.' : Char) then d else d ++ [('.' : Char)]))

/-- `loadRpzFile`, at the level of the lines scanned from the file: each
line contributes its normalized entry (if it has one) to the domain set. -/
def loadRpzLines (lines : List String) : List String :=
  lines.foldl
    (fun domains line =>
      match matchEntry line with
      | none => domains
      | some domain => insertKey domains domain)
    []

/-- The spec's reading of the line scan, stated for comparison with the
code: "each line is scanned for a domain-name pattern ... the first
domain-label match on the line is taken as the entry" — an unanchored
leftmost search that tries every start position in order. -/
def specFirstMatch : List Char → Option (List Char)
  | [] => reFindGroup2 []
  | c :: rest =>
    match reFindGroup2 (c :: rest) with
    | some d => some d
    | none => specFirstMatch rest

/-- Per-line entry extraction under the spec's unanchored reading, with
the same trailing-dot normalization. -/
def specMatchEntry (line : String) : Option String :=
  match specFirstMatch line.toList with
  | none => none
  | some d =>
    some (String.mk (if d.getLast? = some ('.' : Char) then d else d ++ [('.' : Char)]))

/-- Block-set construction under the spec's unanchored reading of the line
scan. -/
def specLoadRpzLines (lines : List String) : List String :=
  lines.foldl
    (fun domains line =>
      match specMatchEntry line with
      | none => domains
      | some domain => insertKey domains domain)
    []

/-- `getBlockedDomains` from cnameprocessor.go, at the level of the lines
of the three list files: load each file, then
`addKeys(blocked, blacklist); removeKeys(blocked, whitelist)`. -/
def getBlockedDomains (blockedLines whitelistLines blacklistLines : List String) :
    List String :=
  let whitelistDomains := loadRpzLines whitelistLines
  let blacklistDomains := loadRpzLines blacklistLines
  let blockedDomains := loadRpzLines blockedLines
  removeKeys (addKeys blockedDomains blacklistDomains) whitelistDomains

/-! ### The reverse-resolution cache (`getHost` in the dnstap decoder) -/

/-- A cache entry: the resolved hostname and when it was stored.
Timestamps are nanoseconds, as in Go's `time`. -/
structure hostItem where
  host : String
  timestamp : Nat
deriving DecidableEq, Repr

/-- The freshness window `time.Duration(time.Hour)` in nanoseconds. -/
def hourNs : Nat := 3600000000000

/-- The environment of one `getHost` call: the current wall-clock time and
the outcome of the (external) `resolver.LookupAddr` call — the returned
host list and whether it errored. -/
structure ResolverEnv where
  now : Nat
  hosts : List String
  err : Bool
deriving DecidableEq, Repr

/-- The hexadecimal digits used by `net.IP.String`'s fallback. -/
def hexDigits : List Char := "0123456789abcdef".toList

/-- Two lowercase hex digits of one byte. -/
def hexByte (b : Nat) : String :=
  String.mk [hexDigits.getD (b / 16 % 16) '0', hexDigits.getD (b % 16) '0']

/-- `net.IP(addr).String()`: `"<nil>"` for a zero-length address, dotted
decimal for a 4-octet address, and the `"?"`-prefixed hex fallback
otherwise (the 16-octet IPv6 textual form is abstracted to the hex
fallback; the claims rely only on the string being non-empty and
determined by the bytes). -/
def ipString (addr : List Nat) : String :=
  match addr with
  | [] => "<nil>"
  | [a, b, c, d] =>
    toString a ++ "." ++ toString b ++ "." ++ toString c ++ "." ++ toString d
  | _ => "?" ++ String.join (addr.map hexByte)

/-- Lookup in the `ipToHost` map. -/
def lookupCache (cache : List (String × hostItem)) (ip : String) : Option hostItem :=
  (cache.find? (fun e => e.1 == ip)).map Prod.snd

/-- The map store `dec.ipToHost[ip] = host`. -/
def cacheInsert (cache : List (String × hostItem)) (ip : String) (h : hostItem) :
    List (String × hostItem) :=
  (ip, h) :: cache.filter (fun e => !(e.1 == ip))

/-- The resolution step of `getHost`: on `err == nil && len(hosts) > 0 &&
hosts[0] != ""` the new entry is the first returned hostname stamped `now`;
otherwise the prior entry is kept when one exists (`host != nil`), and the
literal IP string stamped `now` is used when none does. -/
def resolvedItem (env : ResolverEnv) (prior : Option hostItem) (ip : String) : hostItem :=
  match env.err, env.hosts with
  | false, h0 :: _ =>
    if h0 = "" then
      match prior with
      | some h => h
      | none => ⟨ip, env.now⟩
    else ⟨h0, env.now⟩
  | _, _ =>
    match prior with
    | some h => h
    | none => ⟨ip, env.now⟩

/-- `getHost` from the dnstap decoder.  The Go slice `addr []byte` is
modelled as `Option (List Nat)`: `none` is the `nil` slice (an absent
`query_address`), `some bytes` a present slice, which may itself be empty.
Only `nil` takes the `addr != nil` guard's early return of `""` with no
cache access; every present slice — the empty one included, keyed under
`net.IP`'s `"<nil>"` string form — is looked up in the cache, and a
missing or stale (older than one hour) entry triggers a resolution whose
outcome (`resolvedItem`) is stored and returned; a fresh entry is returned
as-is. -/
def getHost (env : ResolverEnv) (ipToHost : List (String × hostItem)) :
    Option (List Nat) → String × List (String × hostItem)
  | none => ("", ipToHost)
  | some bytes =>
    match lookupCache ipToHost (ipString bytes) with
    | some host =>
      if host.timestamp + hourNs < env.now then
        ((resolvedItem env (some host) (ipString bytes)).host,
         cacheInsert ipToHost (ipString bytes) (resolvedItem env (some host) (ipString bytes)))
      else (host.host, ipToHost)
    | none =>
      ((resolvedItem env none (ipString bytes)).host,
       cacheInsert ipToHost (ipString bytes) (resolvedItem env none (ipString bytes)))

/-- Every hostname stored in the cache is non-empty — the cache invariant
`getHost` maintains. -/
def cacheInvariant (cache : List (String × hostItem)) : Prop :=
  ∀ p ∈ cache, p.2.host ≠ ""

/-! ## Theorems -/

/-- C1: for every traffic record with first question name `"a."`, answer
CNAMEs `a.→b.` and `b.→c.`, processed in a state whose BlockSet contains
`"c."` but neither `"a."` nor `"b."` (with any CloakMap), the engine emits
exactly one `Block("a.")` actuator command (`ZoneAdd`), adds `a.→c.` to the
CloakMap and `"a."` to the BlockSet — and processing the identical record
again in the resulting state changes nothing and emits nothing (the walk
terminates after two iterations, so the result holds for every fuel of at
least two). -/
theorem chainwalk_c1 :
    ∀ (n fuel ts : Nat) (hn : String) (cloak : List (String × String)) (bl : List String),
    bl.contains "c." = true → bl.contains "a." = false → bl.contains "b." = false →
    processDnstapMessage (n + 2) ⟨cloak, bl⟩
        ⟨ts, hn, some (DnsMsg.mk [Question.mk "a."]
          [RR.cname "a." "b.", RR.cname "b." "c."])⟩
      = .ok ⟨mapInsert cloak "a." "c.", insertKey bl "a."⟩
          [⟨UnboundCommand.zoneAdd, "a."⟩]
    ∧ ("a.", "c.") ∈ mapInsert cloak "a." "c."
    ∧ (insertKey bl "a.").contains "a." = true
    ∧ processDnstapMessage fuel ⟨mapInsert cloak "a." "c.", insertKey bl "a."⟩
        ⟨ts, hn, some (DnsMsg.mk [Question.mk "a."]
          [RR.cname "a." "b.", RR.cname "b." "c."])⟩
      = .ok ⟨mapInsert cloak "a." "c.", insertKey bl "a."⟩ [] := by
  intro n fuel ts hn cloak bl hc ha hb
  simp at hc ha hb
  have hins : (insertKey bl "a.").contains "a." = true := by
    simp [insertKey, ha]
  refine ⟨?_, ?_, hins, ?_⟩
  · simp [processDnstapMessage, buildCnames, chainWalk, lookupCname, ha, hb, hc,
      mapInsert, insertKey]
  · simp [mapInsert]
  · have hins2 : "a." ∈ insertKey bl "a." := by simpa using hins
    simp [processDnstapMessage, hins2]

/-- Witness for C1 at the concrete block set holding only `"c."` and an
empty CloakMap. -/
theorem chainwalk_c1_witness :
    (["c."].contains "c." = true ∧ ["c."].contains "a." = false ∧
      ["c."].contains "b." = false) ∧
    processDnstapMessage 2 ⟨[], ["c."]⟩
        ⟨0, "", some (DnsMsg.mk [Question.mk "a."]
          [RR.cname "a." "b.", RR.cname "b." "c."])⟩
      = .ok ⟨[("a.", "c.")], ["a.", "c."]⟩ [⟨UnboundCommand.zoneAdd, "a."⟩] := by
  refine ⟨⟨by decide, by decide, by decide⟩, ?_⟩
  have h := (chainwalk_c1 0 2 0 "" [] ["c."] (by decide) (by decide) (by decide)).1
  simpa [mapInsert, insertKey] using h


/-- Helper for C4: the `ZoneRemove` commands emitted by a reload count the
removed CloakMap entries per key. -/
theorem count_removed (S : List String) (q : String) :
    ∀ l : List (String × String),
    ((l.filter (fun e => !(S.contains e.2))).map
        (fun e => (⟨UnboundCommand.zoneRemove, e.1⟩ : UnboundCommandMessage))).count
      ⟨UnboundCommand.zoneRemove, q⟩
      = (l.filter (fun e => e.1 == q && !(S.contains e.2))).length := by
  intro l
  induction l with
  | nil => rfl
  | cons a l ih =>
    simp only [List.filter_cons]
    cases hS : S.contains a.2
    · cases hq : a.1 == q
      · have hne : (⟨UnboundCommand.zoneRemove, a.1⟩ : UnboundCommandMessage)
            ≠ ⟨UnboundCommand.zoneRemove, q⟩ := by
          intro h
          cases h
          simp at hq
        simp [hS, hq, List.count_cons, hne] at ih ⊢
        exact ih
      · have heq : a.1 = q := by simpa using hq
        simp [hS, hq, List.count_cons, heq] at ih ⊢
        exact ih
    · simp [hS] at ih ⊢
      exact ih

/-- C4: processing a `ReloadBlockSet` command emits exactly one
`Unblock(qname)` (`ZoneRemove`) per CloakMap entry whose target is absent
from the new block set and removes exactly those entries, leaves every
other entry in place, and replaces the live BlockSet with the new set in
its entirety; in particular, with CloakMap `a. → c.` and a new set without
`"c."`, exactly one `Unblock("a.")` is emitted and `"a."` is removed. -/
theorem reload_c4 :
    ∀ (st : EngineState) (S : List String),
    ((processUpdateLists st S).1.blockedDomains = S)
    ∧ (∀ q t, (q, t) ∈ st.blockedCnames → S.contains t = true →
        (q, t) ∈ (processUpdateLists st S).1.blockedCnames)
    ∧ (∀ q t, (q, t) ∈ (processUpdateLists st S).1.blockedCnames →
        (q, t) ∈ st.blockedCnames ∧ S.contains t = true)
    ∧ (∀ q, ((processUpdateLists st S).2.count ⟨UnboundCommand.zoneRemove, q⟩
        = (st.blockedCnames.filter (fun e => e.1 == q && !(S.contains e.2))).length))
    ∧ (∀ c ∈ (processUpdateLists st S).2, c.cmd = UnboundCommand.zoneRemove)
    ∧ processUpdateLists ⟨[("a.", "c.")], ["c."]⟩ ["x."]
        = (⟨[], ["x."]⟩, [⟨UnboundCommand.zoneRemove, "a."⟩]) := by
  intro st S
  refine ⟨rfl, ?_, ?_, ?_, ?_, by decide⟩
  · intro q t hmem hS
    have hS2 : t ∈ S := by simpa using hS
    simp [processUpdateLists, List.mem_filter, hmem, hS2]
  · intro q t hmem
    simp [processUpdateLists, List.mem_filter] at hmem
    exact ⟨hmem.1, by simpa using hmem.2⟩
  · intro q
    exact count_removed S q st.blockedCnames
  · intro c hc
    simp [processUpdateLists] at hc
    obtain ⟨e, _, rfl⟩ := hc
    rfl

/-- Witness for C4 at concrete CloakMaps and reload sets. -/
theorem reload_c4_witness :
    processUpdateLists ⟨[("a.", "c.")], ["c."]⟩ ["x."]
        = (⟨[], ["x."]⟩, [⟨UnboundCommand.zoneRemove, "a."⟩])
    ∧ (("d.", "e.") ∈ [("d.", "e."), ("a.", "c.")] ∧ (["e."].contains "e.") = true)
    ∧ ("d.", "e.") ∈ (processUpdateLists ⟨[("d.", "e."), ("a.", "c.")], []⟩ ["e."]).1.blockedCnames := by
  refine ⟨(reload_c4 ⟨[("a.", "c.")], ["c."]⟩ ["x."]).2.2.2.2.2, ⟨by decide, by decide⟩, ?_⟩
  exact (reload_c4 ⟨[("d.", "e."), ("a.", "c.")], []⟩ ["e."]).2.1 "d." "e." (by decide) (by decide)

/-- Pushing no emitted commands changes nothing. -/
theorem push_nil (r : RunResult) : RunResult.push [] r = r := by
  cases r <;> simp [RunResult.push]

/-- Pushing emitted commands composes by concatenation. -/
theorem push_push (a b : List UnboundCommandMessage) (r : RunResult) :
    RunResult.push a (RunResult.push b r) = RunResult.push (a ++ b) r := by
  cases r <;> simp [RunResult.push]

/-- The command loop consumes an enqueued sequence one command at a time in
enqueue order: a run over `l1 ++ l2` is the run over `l1` continued, from
the state it left, over `l2`. -/
theorem processCommands_append (fuel : Nat) :
    ∀ (l1 : List Command) (st : EngineState) (l2 : List Command),
    processCommands fuel st (l1 ++ l2) =
      match processCommands fuel st l1 with
      | .ok st1 out1 => RunResult.push out1 (processCommands fuel st1 l2)
      | .oobPanic o => .oobPanic o
      | .noTermination o => .noTermination o := by
  intro l1
  induction l1 with
  | nil => intro st l2; simp [processCommands, push_nil]
  | cons c l1 ih =>
    intro st l2
    simp only [List.cons_append, processCommands]
    cases hc : processCommand fuel st c with
    | ok st' out =>
      simp only [List.append_eq] at *
      rw [ih st' l2]
      cases h1 : processCommands fuel st' l1 with
      | ok st1 o1 => cases h2 : processCommands fuel st1 l2 <;>
          simp [h2, RunResult.push, List.append_assoc]
      | oobPanic o => simp [RunResult.push]
      | noTermination o => simp [RunResult.push]
    | oobPanic => rfl
    | noTermination => rfl

/-- C2: commands on the serialized channel are consumed one at a time in
enqueue order (append decomposition); a `TrafficRecord` enqueued before a
`ReloadBlockSet` is evaluated by `processDnstapMessage` against the
pre-reload state, and one enqueued after is evaluated against the
post-reload state, whose BlockSet is exactly the new set. -/
theorem command_order_c2 :
    ∀ (fuel : Nat) (st : EngineState) (l1 l2 : List Command) (R : Message)
      (S : List String) (rest : List Command),
    (processCommands fuel st (l1 ++ l2) =
      match processCommands fuel st l1 with
      | .ok st1 out1 => RunResult.push out1 (processCommands fuel st1 l2)
      | .oobPanic o => .oobPanic o
      | .noTermination o => .noTermination o)
    ∧ (processCommands fuel st (Command.dnsTap R :: Command.updateLists S :: rest) =
      match processDnstapMessage fuel st R with
      | .ok st1 out1 =>
        RunResult.push (out1 ++ (processUpdateLists st1 S).2)
          (processCommands fuel (processUpdateLists st1 S).1 rest)
      | .oobPanic => .oobPanic []
      | .noTermination => .noTermination [])
    ∧ ((processUpdateLists st S).1.blockedDomains = S
      ∧ processCommands fuel st (Command.updateLists S :: Command.dnsTap R :: rest) =
        RunResult.push (processUpdateLists st S).2
          (match processDnstapMessage fuel (processUpdateLists st S).1 R with
          | .ok st2 out2 => RunResult.push out2 (processCommands fuel st2 rest)
          | .oobPanic => .oobPanic []
          | .noTermination => .noTermination [])) := by
  intro fuel st l1 l2 R S rest
  refine ⟨processCommands_append fuel l1 st l2, ?_, rfl, ?_⟩
  · cases h : processDnstapMessage fuel st R with
    | ok st1 o1 => simp [processCommands, processCommand, h, push_push]
    | oobPanic => simp [processCommands, processCommand, h]
    | noTermination => simp [processCommands, processCommand, h]
  · cases h : processDnstapMessage fuel (processUpdateLists st S).1 R with
    | ok st2 o2 => simp [processCommands, processCommand, h, push_push, RunResult.push]
    | oobPanic => simp [processCommands, processCommand, h, RunResult.push]
    | noTermination => simp [processCommands, processCommand, h, RunResult.push]

/-- C10: processing never hits the unchecked `Question[0]` access when
every parsed message has at least one question, and a message with a
non-empty answer section but an empty question section makes the access go
out of bounds. -/
theorem question_oob_c10 :
    (∀ (fuel : Nat) (st : EngineState) (m : Message),
      (∀ d, m.dnsMessage = some d → d.question ≠ []) →
      processDnstapMessage fuel st m ≠ .oobPanic)
    ∧ (∀ (fuel : Nat) (st : EngineState) (ts : Nat) (hn : String) (ans : List RR),
        ans ≠ [] →
        processDnstapMessage fuel st ⟨ts, hn, some (DnsMsg.mk [] ans)⟩ = .oobPanic) := by
  constructor
  · intro fuel st m hq
    cases hm : m.dnsMessage with
    | none => simp [processDnstapMessage, hm]
    | some d =>
      have hne : d.question ≠ [] := hq d hm
      obtain ⟨q0, qs, hq0⟩ := List.exists_cons_of_ne_nil hne
      simp only [processDnstapMessage, hm, hq0, List.head?_cons]
      split
      · split
        · simp
        · split
          · simp
          · split <;> simp
      · simp
  · intro fuel st ts hn ans hans
    have : ans.length > 0 := List.length_pos.mpr hans
    simp [processDnstapMessage, this]

/-- Witness for C10 at concrete messages with empty and non-empty question
sections. -/
theorem question_oob_c10_witness :
    processDnstapMessage 1 ⟨[], []⟩ ⟨0, "", some (DnsMsg.mk [] [RR.other 1 "x."])⟩
        = .oobPanic
    ∧ processDnstapMessage 1 ⟨[], []⟩ ⟨0, "", some (DnsMsg.mk [Question.mk "x."] [RR.other 1 "x."])⟩
        ≠ .oobPanic := by
  constructor
  · exact question_oob_c10.2 1 ⟨[], []⟩ 0 "" [RR.other 1 "x."] (by decide)
  · exact question_oob_c10.1 1 ⟨[], []⟩ _ (by intro d hd; cases hd; simp)


/-- Inserting a key makes it a member. -/
theorem contains_insertKey_self (m : List String) (k : String) :
    (insertKey m k).contains k = true := by
  unfold insertKey
  cases h : m.contains k with
  | true => simpa using h
  | false => simp

/-- Insertion preserves existing membership. -/
theorem contains_insertKey_of_contains (m : List String) (k q : String)
    (h : m.contains q = true) : (insertKey m k).contains q = true := by
  unfold insertKey
  cases hk : m.contains k with
  | true => simpa using h
  | false =>
    simp at h
    simp [h]

/-- A successfully processed dnstap message either leaves the engine state
unchanged or adds a CloakMap entry and the BlockSet membership of its key
in the same step. -/
theorem processDnstapMessage_ok_cases (fuel : Nat) (st : EngineState) (msg : Message)
    (st' : EngineState) (out : List UnboundCommandMessage)
    (h : processDnstapMessage fuel st msg = .ok st' out) :
    st' = st ∨ ∃ qn cn, st'.blockedCnames = mapInsert st.blockedCnames qn cn
      ∧ st'.blockedDomains = insertKey st.blockedDomains qn := by
  unfold processDnstapMessage at h
  repeat' split at h
  all_goals
    first
      | (cases h
         exact Or.inl rfl)
      | (cases h
         exact Or.inr ⟨_, _, rfl, rfl⟩)
      | (cases h)

/-- C3 (amended): in every state reachable by `TrafficRecord` processing
alone — no reload — every key of the CloakMap is in the live BlockSet; the
key and its membership are added together in the same step.  (The original
claim over sequences that may include `ReloadBlockSet` steps is refuted by
the counterexample below: a reload swaps in the file-derived set, which
lacks the live-added keys of retained entries.) -/
theorem cloakmap_invariant_c3 :
    ∀ (init : List String) (st : EngineState), ReachableNoReload init st →
    ∀ q t, (q, t) ∈ st.blockedCnames → st.blockedDomains.contains q = true := by
  intro init st h
  induction h with
  | base => intro q t hmem; simp at hmem
  | dnsTap fuel msg hst heq ih =>
    intro q t hmem
    rcases processDnstapMessage_ok_cases _ _ _ _ _ heq with hsame | ⟨qn, cn, hc, hb⟩
    · subst hsame
      exact ih q t hmem
    · rw [hc] at hmem
      rw [hb]
      simp only [mapInsert, List.mem_cons, List.mem_filter] at hmem
      rcases hmem with heq2 | ⟨hmem2, _⟩
      · cases heq2
        exact contains_insertKey_self _ _
      · exact contains_insertKey_of_contains _ _ _ (ih q t hmem2)

/-- Witness for C3 at a concrete reachable state. -/
theorem cloakmap_invariant_c3_witness :
    ReachableNoReload ["c."] ⟨[("a.", "c.")], ["a.", "c."]⟩
    ∧ ("a.", "c.") ∈ ([("a.", "c.")] : List (String × String))
    ∧ (["a.", "c."].contains "a.") = true := by
  have h1 : ReachableNoReload ["c."] ⟨[], ["c."]⟩ := ReachableNoReload.base
  have heq : processDnstapMessage 2 ⟨[], ["c."]⟩
      ⟨0, "", some (DnsMsg.mk [Question.mk "a."]
        [RR.cname "a." "b.", RR.cname "b." "c."])⟩
      = .ok ⟨[("a.", "c.")], ["a.", "c."]⟩ [⟨UnboundCommand.zoneAdd, "a."⟩] := by decide
  have h2 : ReachableNoReload ["c."] ⟨[("a.", "c.")], ["a.", "c."]⟩ :=
    ReachableNoReload.dnsTap 2 _ h1 heq
  exact ⟨h2, by decide,
    cloakmap_invariant_c3 ["c."] ⟨[("a.", "c.")], ["a.", "c."]⟩ h2 "a." "c." (by decide)⟩

/-- Counterexample to C3 as stated: from initial BlockSet `"c."`, a
traffic record chaining `a. → b. → c.` followed by a reload with new set
`"c."` reaches a state whose CloakMap has key `"a."` while the live
BlockSet no longer contains `"a."`. -/
theorem cloakmap_invariant_c3_counterexample :
    Reachable ["c."] ⟨[("a.", "c.")], ["c."]⟩
    ∧ ("a.", "c.") ∈ ([("a.", "c.")] : List (String × String))
    ∧ (["c."].contains "a.") = false := by
  refine ⟨?_, by decide, by decide⟩
  have h1 : Reachable ["c."] ⟨[], ["c."]⟩ := Reachable.base
  have heq : processDnstapMessage 2 ⟨[], ["c."]⟩
      ⟨0, "", some (DnsMsg.mk [Question.mk "a."]
        [RR.cname "a." "b.", RR.cname "b." "c."])⟩
      = .ok ⟨[("a.", "c.")], ["a.", "c."]⟩ [⟨UnboundCommand.zoneAdd, "a."⟩] := by decide
  have h2 : Reachable ["c."] ⟨[("a.", "c.")], ["a.", "c."]⟩ :=
    Reachable.dnsTap 2 _ h1 heq
  have h3 := Reachable.updateLists ["c."] h2
  exact h3


/-- Membership in a set after `m[key] = true`. -/
theorem mem_insertKey (m : List String) (k x : String) :
    x ∈ insertKey m k ↔ x ∈ m ∨ x = k := by
  unfold insertKey
  by_cases h : m.contains k = true
  · rw [if_pos h]
    have hk : k ∈ m := by simpa using h
    constructor
    · exact Or.inl
    · rintro (hx | rfl)
      · exact hx
      · exact hk
  · rw [if_neg h]
    simp only [List.mem_cons]
    tauto

/-- `addKeys` computes the union. -/
theorem mem_addKeys (x : String) :
    ∀ (keys dest : List String), x ∈ addKeys dest keys ↔ x ∈ dest ∨ x ∈ keys := by
  intro keys
  induction keys with
  | nil => intro dest; simp [addKeys]
  | cons k ks ih =>
    intro dest
    unfold addKeys at ih ⊢
    rw [List.foldl_cons, ih (insertKey dest k), mem_insertKey]
    simp only [List.mem_cons]
    tauto

/-- `removeKeys` computes the set difference. -/
theorem mem_removeKeys (x : String) :
    ∀ (keys dest : List String), x ∈ removeKeys dest keys ↔ x ∈ dest ∧ x ∉ keys := by
  intro keys
  induction keys with
  | nil => intro dest; simp [removeKeys]
  | cons k ks ih =>
    intro dest
    unfold removeKeys at ih ⊢
    rw [List.foldl_cons, ih]
    simp only [List.mem_filter, List.mem_cons]
    constructor
    · rintro ⟨⟨hd, hk⟩, hks⟩
      refine ⟨hd, ?_⟩
      rintro (rfl | hmem)
      · simp at hk
      · exact hks hmem
    · rintro ⟨hd, hn⟩
      refine ⟨⟨hd, ?_⟩, fun hmem => hn (Or.inr hmem)⟩
      simp only [Bool.not_eq_true', beq_eq_false_iff_ne]
      exact fun hxk => hn (Or.inl hxk)

/-- C5: the constructed BlockSet is `(base ∪ supplementary) − allow` as a
set: membership in `removeKeys (addKeys base supp) allow` (and in
`getBlockedDomains` over the three loaded files) is the boolean combination
of the input memberships, and is invariant under permuting any input. -/
theorem blockset_composition_c5 :
    ∀ (base supp allow : List String) (d : String),
    (d ∈ removeKeys (addKeys base supp) allow ↔ (d ∈ base ∨ d ∈ supp) ∧ d ∉ allow)
    ∧ (∀ (blockedL whitelistL blacklistL : List String),
        d ∈ getBlockedDomains blockedL whitelistL blacklistL ↔
          (d ∈ loadRpzLines blockedL ∨ d ∈ loadRpzLines blacklistL)
          ∧ d ∉ loadRpzLines whitelistL)
    ∧ (∀ base2 supp2 allow2 : List String,
        base.Perm base2 → supp.Perm supp2 → allow.Perm allow2 →
        (d ∈ removeKeys (addKeys base2 supp2) allow2 ↔
          d ∈ removeKeys (addKeys base supp) allow)) := by
  intro base supp allow d
  refine ⟨?_, ?_, ?_⟩
  · rw [mem_removeKeys, mem_addKeys]
  · intro blockedL whitelistL blacklistL
    unfold getBlockedDomains
    rw [mem_removeKeys, mem_addKeys]
  · intro base2 supp2 allow2 hb hs ha
    rw [mem_removeKeys, mem_addKeys, mem_removeKeys, mem_addKeys,
      hb.mem_iff, hs.mem_iff, ha.mem_iff]


/-- `net.IP.String` never returns the empty string. -/
theorem ipString_ne_empty (addr : List Nat) : ipString addr ≠ "" := by
  unfold ipString
  split
  · decide
  · intro h
    have hlen := congrArg String.length h
    have hdot : String.length "." = 1 := rfl
    simp [String.length_append, hdot] at hlen
  · intro h
    have hlen := congrArg String.length h
    have hq : String.length "?" = 1 := rfl
    simp [String.length_append, hq] at hlen

/-- Storing a non-empty hostname preserves the cache invariant. -/
theorem cacheInvariant_insert (cache : List (String × hostItem)) (ip : String)
    (it : hostItem) (hinv : cacheInvariant cache) (hh : it.host ≠ "") :
    cacheInvariant (cacheInsert cache ip it) := by
  intro p hp
  simp only [cacheInsert, List.mem_cons, List.mem_filter] at hp
  rcases hp with rfl | ⟨hmem, _⟩
  · exact hh
  · exact hinv p hmem

/-- An entry found in an invariant-satisfying cache has a non-empty
hostname. -/
theorem host_ne_of_lookup (cache : List (String × hostItem)) (ip : String)
    (it : hostItem) (hinv : cacheInvariant cache)
    (h : lookupCache cache ip = some it) : it.host ≠ "" := by
  unfold lookupCache at h
  cases hf : cache.find? (fun e => e.1 == ip) with
  | none => rw [hf] at h; cases h
  | some e =>
    rw [hf] at h
    cases h
    exact hinv e (List.mem_of_find?_eq_some hf)

/-- The resolution step never produces an empty hostname, whatever the
resolver returned. -/
theorem resolvedItem_host_ne (env : ResolverEnv) (prior : Option hostItem) (ip : String)
    (hprior : ∀ h, prior = some h → h.host ≠ "") (hip : ip ≠ "") :
    (resolvedItem env prior ip).host ≠ "" := by
  unfold resolvedItem
  split
  · split
    · split
      · exact hprior _ rfl
      · exact hip
    · simp_all
  · split
    · exact hprior _ rfl
    · exact hip

/-- C6 (amended): under the cache invariant (all cached hostnames
non-empty, which holds initially and is preserved by every call),
`getHost` returns the empty string exactly when the address slice is `nil`
(absent), in which case the cache is untouched; every present byte
sequence — the empty slice included — yields a non-empty hostname.  (The
original claim's "empty input", read as the empty byte sequence, is
refuted by the counterexample below: the present-but-empty slice is
resolved under `net.IP`'s `"<nil>"` string form, returns the non-empty
`"<nil>"` and mutates the cache.) -/
theorem lookup_empty_c6 :
    ∀ (env : ResolverEnv) (cache : List (String × hostItem)) (addr : Option (List Nat)),
    cacheInvariant cache →
    (((getHost env cache addr).1 = "") ↔ addr = none)
    ∧ (addr = none → (getHost env cache addr).2 = cache)
    ∧ cacheInvariant (getHost env cache addr).2 := by
  intro env cache addr hinv
  cases addr with
  | none => simp [getHost, hinv]
  | some bytes =>
    show (((getHost env cache (some bytes)).1 = "") ↔ _) ∧ _ ∧ _
    unfold getHost
    dsimp only
    cases hl : lookupCache cache (ipString bytes) with
    | some host =>
      dsimp only
      have hhost : host.host ≠ "" := host_ne_of_lookup _ _ _ hinv hl
      by_cases hstale : host.timestamp + hourNs < env.now
      · rw [if_pos hstale]
        have hres : (resolvedItem env (some host) (ipString bytes)).host ≠ "" :=
          resolvedItem_host_ne _ _ _ (by intro h hh; cases hh; exact hhost)
            (ipString_ne_empty bytes)
        exact ⟨⟨fun h => absurd h hres, fun h => Option.noConfusion h⟩,
          fun h => Option.noConfusion h,
          cacheInvariant_insert _ _ _ hinv hres⟩
      · rw [if_neg hstale]
        exact ⟨⟨fun h => absurd h hhost, fun h => Option.noConfusion h⟩,
          fun h => Option.noConfusion h, hinv⟩
    | none =>
      dsimp only
      have hres : (resolvedItem env none (ipString bytes)).host ≠ "" :=
        resolvedItem_host_ne _ _ _ (by intro h hh; cases hh) (ipString_ne_empty bytes)
      exact ⟨⟨fun h => absurd h hres, fun h => Option.noConfusion h⟩,
        fun h => Option.noConfusion h,
        cacheInvariant_insert _ _ _ hinv hres⟩

/-- Witness for C6 at the empty cache with a nil address and a present
4-octet address. -/
theorem lookup_empty_c6_witness :
    cacheInvariant ([] : List (String × hostItem))
    ∧ (((getHost ⟨0, [], true⟩ [] (some [1, 2, 3, 4])).1 = "")
        ↔ (some [1, 2, 3, 4] : Option (List Nat)) = none)
    ∧ (getHost ⟨0, [], true⟩ [] none = ("", [])) := by
  have hinv : cacheInvariant ([] : List (String × hostItem)) := by
    intro p hp
    simp at hp
  refine ⟨hinv, (lookup_empty_c6 ⟨0, [], true⟩ [] (some [1, 2, 3, 4]) hinv).1, ?_⟩
  have h := (lookup_empty_c6 ⟨0, [], true⟩ [] none hinv).2.1 rfl
  have h1 := ((lookup_empty_c6 ⟨0, [], true⟩ [] none hinv).1).mpr rfl
  cases hg : getHost ⟨0, [], true⟩ [] none with
  | mk a b =>
    rw [hg] at h h1
    simp at h h1
    rw [h, h1]

/-- Counterexample to C6 as stated: the present-but-empty byte sequence is
an empty input on which the code does not return the empty string and does
not leave the cache unchanged — it resolves the `"<nil>"` IP form, fails,
caches the literal `"<nil>"` fallback and returns it. -/
theorem lookup_empty_c6_counterexample :
    getHost ⟨5, [], true⟩ [] (some [])
      = ("<nil>", [("<nil>", ⟨"<nil>", 5⟩)])
    ∧ ("<nil>" : String) ≠ ""
    ∧ ([("<nil>", (⟨"<nil>", 5⟩ : hostItem))] : List (String × hostItem)) ≠ [] := by
  refine ⟨rfl, by decide, by decide⟩

/-- When the reverse lookup fails (error, no hosts, or an empty first
host), the resolution step keeps the prior entry if one exists and falls
back to the literal IP otherwise. -/
theorem resolvedItem_failure (env : ResolverEnv) (prior : Option hostItem) (ip : String)
    (hfail : env.err = true ∨ env.hosts = [] ∨ env.hosts.head? = some "") :
    resolvedItem env prior ip
      = (match prior with | some h => h | none => ⟨ip, env.now⟩) := by
  unfold resolvedItem
  rcases hfail with he | hh | hh0
  · rw [he]
  · rw [hh]
    cases env.err <;> rfl
  · cases hhs : env.hosts with
    | nil => cases env.err <;> rfl
    | cons h0 hs =>
      rw [hhs] at hh0
      simp at hh0
      cases env.err with
      | false => simp [hh0]
      | true => rfl

/-- C7: on a failed reverse resolution for a non-empty address (a present
slice with at least one byte), `getHost` stores and returns the literal IP
string when no prior cache entry exists, and returns a prior (stale) entry
completely unchanged — same hostname and same timestamp — when one
does. -/
theorem lookup_failure_c7 :
    ∀ (env : ResolverEnv) (cache : List (String × hostItem)) (bytes : List Nat),
    bytes ≠ [] →
    (env.err = true ∨ env.hosts = [] ∨ env.hosts.head? = some "") →
    (lookupCache cache (ipString bytes) = none →
      getHost env cache (some bytes)
        = (ipString bytes, cacheInsert cache (ipString bytes) ⟨ipString bytes, env.now⟩))
    ∧ (∀ it, lookupCache cache (ipString bytes) = some it →
        it.timestamp + hourNs < env.now →
        getHost env cache (some bytes) = (it.host, cacheInsert cache (ipString bytes) it)
          ∧ lookupCache (getHost env cache (some bytes)).2 (ipString bytes) = some it) := by
  intro env cache bytes _haddr hfail
  constructor
  · intro hl
    unfold getHost
    dsimp only
    rw [hl]
    dsimp only
    rw [resolvedItem_failure env none _ hfail]
  · intro it hl hstale
    have hres : getHost env cache (some bytes)
        = (it.host, cacheInsert cache (ipString bytes) it) := by
      unfold getHost
      dsimp only
      rw [hl]
      dsimp only
      rw [if_pos hstale, resolvedItem_failure env (some it) _ hfail]
    refine ⟨hres, ?_⟩
    rw [hres]
    simp [lookupCache, cacheInsert]

/-- Witness for C7: a failing lookup with no prior entry caches the
literal IP; one with a stale prior entry returns it unchanged. -/
theorem lookup_failure_c7_witness :
    (([1, 2, 3, 4] : List Nat) ≠ [] ∧ ((true = true ∨ ([] : List String) = [] ∨
        ([] : List String).head? = some "")))
    ∧ getHost ⟨7, [], true⟩ [] (some [1, 2, 3, 4])
        = ("1.2.3.4", [("1.2.3.4", ⟨"1.2.3.4", 7⟩)])
    ∧ getHost ⟨3600000000005, [], true⟩ [("1.2.3.4", ⟨"old.example.", 4⟩)]
        (some [1, 2, 3, 4])
        = ("old.example.", [("1.2.3.4", ⟨"old.example.", 4⟩)]) := by
  refine ⟨⟨by decide, Or.inl rfl⟩, ?_, ?_⟩
  · have h := (lookup_failure_c7 ⟨7, [], true⟩ [] [1, 2, 3, 4] (by decide)
      (Or.inl rfl)).1 (by decide)
    simpa [cacheInsert] using h
  · have h := ((lookup_failure_c7 ⟨3600000000005, [], true⟩
      [("1.2.3.4", ⟨"old.example.", 4⟩)] [1, 2, 3, 4] (by decide)
      (Or.inl rfl)).2 ⟨"old.example.", 4⟩ (by decide) (by decide)).1
    simpa [cacheInsert] using h


/-- The orbit after `n + 1` advances is the orbit of the first advance's
target after `n`. -/
theorem orbit_shift (cnames : List (String × String)) (q : String) :
    ∀ n, orbit cnames q (n + 1)
      = match chainStep cnames q with
        | none => none
        | some t => orbit cnames t n := by
  intro n
  induction n with
  | zero =>
    show (match orbit cnames q 0 with
      | none => none
      | some x => chainStep cnames x) = _
    cases h : chainStep cnames q with
    | none => simp [orbit, h]
    | some t => simp [orbit, h]
  | succ n ih =>
    show (match orbit cnames q (n + 1) with
      | none => none
      | some x => chainStep cnames x) = _
    rw [ih]
    cases h : chainStep cnames q with
    | none => rfl
    | some t => rfl

/-- If the chain from `q` dies within `n` advances, the walk with fuel `n`
terminates (is not cut off by the fuel), whatever the block set. -/
theorem chainWalk_term_of_orbit_none (cnames : List (String × String))
    (blocked : List String) :
    ∀ n q, orbit cnames q n = none → chainWalk cnames blocked n q ≠ .fuelOut := by
  intro n
  induction n with
  | zero => intro q h; simp [orbit] at h
  | succ n ih =>
    intro q h
    rw [orbit_shift] at h
    by_cases hlc : lookupCname cnames q = ""
    · show ¬ _
      rw [chainWalk]
      simp only [hlc, if_pos rfl]
      simp
    · have hcs : chainStep cnames q = some (lookupCname cnames q) := by
        unfold chainStep
        rw [if_neg hlc]
      rw [hcs] at h
      show ¬ _
      rw [chainWalk]
      simp only [if_neg hlc]
      by_cases hb : blocked.contains (lookupCname cnames q) = true
      · have hb2 : lookupCname cnames q ∈ blocked := by simpa using hb
        simp [hb2]
      · have hb2 : lookupCname cnames q ∉ blocked := by simpa using hb
        simp only [Bool.not_eq_true] at hb
        simp [hb, hb2]
        exact ih _ h

/-- Pigeonhole: an acyclic-along-the-path chain dies within
`cnames.length + 1` advances — the visited names are pairwise distinct
keys of the finite CNAME map. -/
theorem orbit_dies_of_pathAcyclic (cnames : List (String × String)) (q : String)
    (hacyc : pathAcyclic cnames q) :
    ∃ n, n ≤ cnames.length + 1 ∧ orbit cnames q n = none := by
  by_contra hcon
  push_neg at hcon
  have hsome : ∀ n, n ≤ cnames.length + 1 → ∃ x, orbit cnames q n = some x := by
    intro n hn
    cases ho : orbit cnames q n with
    | none => exact absurd ho (hcon n hn)
    | some x => exact ⟨x, rfl⟩
  set N := cnames.length with hN
  set L : List String :=
    (List.range (N + 1)).map (fun i => (orbit cnames q i).getD "") with hL
  have hnodup : L.Nodup := by
    refine List.Nodup.map_on ?_ (List.nodup_range _)
    intro i hi j hj hf
    simp only [List.mem_range] at hi hj
    obtain ⟨xi, hxi⟩ := hsome i (by omega)
    obtain ⟨xj, hxj⟩ := hsome j (by omega)
    rcases Nat.lt_trichotomy i j with hij | hij | hij
    · exfalso
      have := hacyc j (by omega) i hij
      rw [hxi, hxj] at this
      rw [hxi, hxj] at hf
      simp at hf
      rw [hf] at this
      simp at this
    · exact hij
    · exfalso
      have := hacyc i (by omega) j hij
      rw [hxi, hxj] at this
      rw [hxi, hxj] at hf
      simp at hf
      rw [hf] at this
      simp at this
  have hsub : L ⊆ cnames.map Prod.fst := by
    intro x hx
    simp only [hL, List.mem_map, List.mem_range] at hx
    obtain ⟨i, hi, hfx⟩ := hx
    obtain ⟨xi, hxi⟩ := hsome i (by omega)
    obtain ⟨xi1, hxi1⟩ := hsome (i + 1) (by omega)
    rw [hxi] at hfx
    simp at hfx
    simp only [orbit] at hxi1
    rw [hxi] at hxi1
    dsimp only at hxi1
    have hlc : lookupCname cnames xi ≠ "" := by
      intro hlceq
      unfold chainStep at hxi1
      rw [if_pos hlceq] at hxi1
      cases hxi1
    have hfind : ∃ e, cnames.find? (fun e => e.1 == xi) = some e := by
      cases hf2 : cnames.find? (fun e => e.1 == xi) with
      | none => exact absurd (by unfold lookupCname; rw [hf2]) hlc
      | some e => exact ⟨e, rfl⟩
    obtain ⟨e, he⟩ := hfind
    have hmem := List.mem_of_find?_eq_some he
    have hkey : e.1 = xi := by
      have := List.find?_some he
      simpa using this
    rw [← hfx, ← hkey]
    exact List.mem_map_of_mem Prod.fst hmem
  have hlen : L.length ≤ (cnames.map Prod.fst).length :=
    (List.subperm_of_subset hnodup hsub).length_le
  simp only [hL, List.length_map, List.length_range] at hlen
  omega

/-- C8: the chain walk terminates within `cnames.length + 1` iterations
whenever the CNAME mapping is acyclic along the path from the query name;
and for the cyclic mapping `a. → b. → a.` with no name blocked, the walk
exhausts every fuel bound — it never terminates (there is no cycle
guard). -/
theorem chainwalk_termination_c8 :
    (∀ (cnames : List (String × String)) (blocked : List String) (q : String),
      pathAcyclic cnames q →
      ∃ fuel, fuel ≤ cnames.length + 1
        ∧ chainWalk cnames blocked fuel q ≠ .fuelOut)
    ∧ (∀ fuel, chainWalk [("a.", "b."), ("b.", "a.")] [] fuel "a." = .fuelOut) := by
  constructor
  · intro cnames blocked q hacyc
    obtain ⟨n, hn, ho⟩ := orbit_dies_of_pathAcyclic cnames q hacyc
    exact ⟨n, hn, chainWalk_term_of_orbit_none cnames blocked n q ho⟩
  · have key : ∀ fuel, chainWalk [("a.", "b."), ("b.", "a.")] [] fuel "a." = .fuelOut
        ∧ chainWalk [("a.", "b."), ("b.", "a.")] [] fuel "b." = .fuelOut := by
      intro fuel
      induction fuel with
      | zero => exact ⟨rfl, rfl⟩
      | succ n ih =>
        constructor
        · rw [chainWalk]
          simpa [lookupCname] using ih.2
        · rw [chainWalk]
          simpa [lookupCname] using ih.1
    exact fun fuel => (key fuel).1

/-- Witness for C8 on a concrete acyclic one-step chain. -/
theorem chainwalk_termination_c8_witness :
    pathAcyclic [("a.", "b.")] "a."
    ∧ ∃ fuel, fuel ≤ ([("a.", "b.")] : List (String × String)).length + 1
      ∧ chainWalk [("a.", "b.")] ["x."] fuel "a." ≠ .fuelOut := by
  have hacyc : pathAcyclic [("a.", "b.")] "a." := by decide
  exact ⟨hacyc, chainwalk_termination_c8.1 [("a.", "b.")] ["x."] "a." hacyc⟩


/-- Membership in the scanner fold: a domain is collected iff some line
yields it as its normalized entry. -/
theorem mem_loadRpz_foldl (d : String) :
    ∀ (lines : List String) (acc : List String),
    d ∈ lines.foldl
        (fun domains line =>
          match matchEntry line with
          | none => domains
          | some domain => insertKey domains domain)
        acc
      ↔ d ∈ acc ∨ ∃ line ∈ lines, matchEntry line = some d := by
  intro lines
  induction lines with
  | nil => intro acc; simp
  | cons line ls ih =>
    intro acc
    rw [List.foldl_cons, ih]
    cases hm : matchEntry line with
    | none =>
      simp only [List.mem_cons]
      constructor
      · rintro (ha | ⟨l2, hl2, he⟩)
        · exact Or.inl ha
        · exact Or.inr ⟨l2, Or.inr hl2, he⟩
      · rintro (ha | ⟨l2, (rfl | hl2), he⟩)
        · exact Or.inl ha
        · rw [hm] at he; cases he
        · exact Or.inr ⟨l2, hl2, he⟩
    | some dom =>
      rw [mem_insertKey]
      simp only [List.mem_cons]
      constructor
      · rintro ((ha | rfl) | ⟨l2, hl2, he⟩)
        · exact Or.inl ha
        · exact Or.inr ⟨line, Or.inl rfl, hm⟩
        · exact Or.inr ⟨l2, Or.inr hl2, he⟩
      · rintro (ha | ⟨l2, (rfl | hl2), he⟩)
        · exact Or.inl (Or.inl ha)
        · rw [hm] at he
          cases he
          exact Or.inl (Or.inr rfl)
        · exact Or.inr ⟨l2, hl2, he⟩

/-- Every entry produced by the line scan ends with a dot. -/
theorem matchEntry_endsWith (line : String) (d : String)
    (h : matchEntry line = some d) : d.toList.getLast? = some ('.' : Char) := by
  unfold matchEntry at h
  cases hf : reFindGroup2 line.toList with
  | none => rw [hf] at h; cases h
  | some m =>
    rw [hf] at h
    cases h
    show (String.mk _).data.getLast? = _
    by_cases hl : m.getLast? = some ('.' : Char)
    · rw [if_pos hl]
      exact hl
    · rw [if_neg hl]
      exact List.getLast?_concat _

/-- C9 (amended): a line contributes an entry exactly when the pattern —
optional `local-zone: "` prefix then domain label sequence — matches at
the start of the line (the regular expression is anchored with `^`; a
domain appearing only later on the line is not taken), the entry being the
matched domain normalized to end with a trailing dot; lines with no such
match contribute no entry.  (The original claim's "first domain-label
match on the line" — an unanchored scan — is refuted by the counterexample
below.) -/
theorem loadRpz_c9 :
    ∀ (lines : List String) (d : String),
    (d ∈ loadRpzLines lines ↔ ∃ line ∈ lines, matchEntry line = some d)
    ∧ (d ∈ loadRpzLines lines → d.toList.getLast? = some ('.' : Char)) := by
  intro lines d
  have hchar := mem_loadRpz_foldl d lines []
  unfold loadRpzLines
  constructor
  · rw [hchar]
    simp
  · intro hd
    rw [hchar] at hd
    rcases hd with h | ⟨line, _, he⟩
    · simp at h
    · exact matchEntry_endsWith line d he

/-- Witness for C9 on a concrete file whose first line matches at the
start and whose second line matches nowhere. -/
theorem loadRpz_c9_witness :
    ("example.com." ∈ loadRpzLines ["example.com", "# comment"]
      ↔ ∃ line ∈ ["example.com", "# comment"], matchEntry line = some "example.com.")
    ∧ ("example.com." ∈ loadRpzLines ["example.com", "# comment"]) := by
  refine ⟨(loadRpz_c9 ["example.com", "# comment"] "example.com.").1, ?_⟩
  rw [(loadRpz_c9 ["example.com", "# comment"] "example.com.").1]
  exact ⟨"example.com", by decide, by decide⟩

/-- Counterexample to C9 as stated: on the line `"# example.com"` the
first domain-label match on the line is `example.com`, so the spec reading
collects `example.com.`, but the code's anchored pattern does not match at
the start of the line and the entry set stays empty. -/
theorem loadRpz_c9_counterexample :
    loadRpzLines ["# example.com"] = []
    ∧ specLoadRpzLines ["# example.com"] = ["example.com."] := by
  constructor
  · decide
  · decide


/-- Witness for C5 at concrete lists and a concrete permutation. -/
theorem blockset_composition_c5_witness :
    (["a.", "x."] : List String).Perm ["x.", "a."]
    ∧ ("a." ∈ removeKeys (addKeys ["x.", "a."] ["b."]) ["y."]
        ↔ "a." ∈ removeKeys (addKeys ["a.", "x."] ["b."]) ["y."])
    ∧ ("a." ∈ removeKeys (addKeys ["a.", "x."] ["b."]) ["y."]
        ↔ ("a." ∈ (["a.", "x."] : List String) ∨ "a." ∈ (["b."] : List String))
          ∧ "a." ∉ (["y."] : List String)) := by
  have hp : (["a.", "x."] : List String).Perm ["x.", "a."] := List.Perm.swap "x." "a." []
  exact ⟨hp,
    (blockset_composition_c5 ["a.", "x."] ["b."] ["y."] "a.").2.2 ["x.", "a."] ["b."] ["y."]
      hp (List.Perm.refl _) (List.Perm.refl _),
    (blockset_composition_c5 ["a.", "x."] ["b."] ["y."] "a.").1⟩

end DnstapInflux
